import Mathlib

/-!
Verification of the LanceDB knowledge-base scripts
(`skills/lance/scripts/ingest.py`, `skills/lance/scripts/manage.py`).

Python strings are embedded as Lean `String` (a wrapper around `List Char`);
the Python primitives `str.split()`, `str.strip()`, `" ".join`, and list
slicing `xs[a:b]` are modelled from first principles below.  The `while`
loop of `chunk_text` is modelled with explicit fuel, so that the value
`none` represents a non-terminating run of the Python loop.
-/

namespace AionUi

/-- Helper for Python `str.split()`: walks the character list, accumulating
the current (reversed) word in `cur`; words are maximal runs of
non-whitespace characters. -/
def wordsAux : List Char → List Char → List String
  | [], cur => if cur.isEmpty then [] else [⟨cur.reverse⟩]
  | c :: cs, cur =>
    if c.isWhitespace then
      if cur.isEmpty then wordsAux cs []
      else (⟨cur.reverse⟩ : String) :: wordsAux cs []
    else wordsAux cs (c :: cur)

/-- Python `text.split()` (no separator): split on runs of whitespace,
dropping empty pieces.  Models line 72 of ingest.py: `words = text.split()`. -/
def pySplit (s : String) : List String :=
  wordsAux s.data []

/-- Python `str.strip()` on a character list: drop leading and trailing
whitespace. -/
def stripList (cs : List Char) : List Char :=
  ((cs.dropWhile Char.isWhitespace).reverse.dropWhile Char.isWhitespace).reverse

/-- Python `text.strip()`. -/
def pyStrip (s : String) : String :=
  ⟨stripList s.data⟩

/-- Character list of Python `" ".join(ws)`. -/
def joinWords : List String → List Char
  | [] => []
  | [w] => w.data
  | w :: ws => w.data ++ ' ' :: joinWords ws

/-- Python `" ".join(ws)`.  Models line 78 of ingest.py. -/
def joinSpace (ws : List String) : String :=
  ⟨joinWords ws⟩

/-- Python index normalization for slicing: a negative index counts from the
end; the result is clamped to `[0, n]`. -/
def pyClamp (n : Nat) (i : Int) : Nat :=
  if i < 0 then ((n : Int) + i).toNat else min i.toNat n

/-- Python list slice `xs[a:b]` (step 1), with Python's negative-index and
clamping semantics.  Models line 77 of ingest.py: `words[i : i + max_words]`. -/
def pySlice (xs : List String) (a b : Int) : List String :=
  let lo := pyClamp xs.length a
  let hi := pyClamp xs.length b
  (xs.drop lo).take (hi - lo)

/-- The `while i < len(words)` loop of `chunk_text` (ingest.py lines 76-85),
with explicit fuel.  Each constructor-level call mirrors one loop iteration:
take the slice `words[i : i + max_words]`, join it with single spaces, append
its `strip()` if non-empty, advance `i` by `max_words - overlap` (as a Python
integer, so the step may be zero or negative), and break if the window held
fewer than `max_words` tokens.  `none` means the fuel ran out, i.e. the
Python loop would still be running. -/
def chunkLoop (words : List String) (m o : Nat) :
    Nat → Int → List String → Option (List String)
  | 0, _, _ => none
  | fuel + 1, i, chunks =>
    if i < (words.length : Int) then
      let cw := pySlice words i (i + (m : Int))
      let chunk := pyStrip (joinSpace cw)
      let chunks' := if chunk.data.isEmpty then chunks else chunks ++ [chunk]
      if cw.length < m then some chunks'
      else chunkLoop words m o fuel (i + ((m : Int) - (o : Int))) chunks'
    else some chunks

/-- Model of `chunk_text(text, max_words, overlap)` (ingest.py lines 70-87), fuelled.
After the loop, the Python fallback
`chunks if chunks else [text.strip()] if text.strip() else []` is applied. -/
def chunk_textF (fuel : Nat) (text : String) (m o : Nat) : Option (List String) :=
  match chunkLoop (pySplit text) m o fuel 0 [] with
  | none => none
  | some chunks =>
    some (if chunks.isEmpty then
            (if (pyStrip text).data.isEmpty then [] else [pyStrip text])
          else chunks)

/-- Concatenation of the novel (non-overlapping) tokens of a chunk sequence:
the first chunk's tokens in full, then each later chunk's tokens with the
first `o` (the overlap with its predecessor) dropped. -/
def joinD (o : Nat) : List (List String) → List String
  | [] => []
  | w :: rest => w ++ (rest.map (List.drop o)).flatten

/-! ## The knowledge store model

State-passing embedding of `ingest_document` (ingest.py lines 90-194),
`init_knowledge_base` (manage.py lines 288-398) and `clear_knowledge`
(manage.py lines 401-427).  A workspace's on-disk state is the existence of
the `.lance` directory plus the optional `knowledge` table; the external
environment records whether `lancedb` imports, whether an API key is set
(`EMBEDDING_API_KEY` or the `OPENAI_API_KEY` fallback), and whether the
embedding-provider calls succeed (any provider failure is raised and caught
by the scripts' blanket `except`).  UUID generation is modelled by a fresh
counter. -/

/-- One row of the `knowledge` table (the `DocumentChunk` schema,
ingest.py lines 142-149 and the record built at lines 172-181). -/
structure ChunkRecord where
  id : Nat
  text : String
  source_file : String
  page : Nat
  chunk_index : Nat
  created_at : String
deriving Repr, DecidableEq

/-- The `knowledge` table: its rows and its LanceDB version counter. -/
structure KTable where
  rows : List ChunkRecord
  version : Nat
deriving Repr, DecidableEq

/-- On-disk state of one workspace: whether `<workspace>/.lance` exists,
the optional `knowledge` table inside it, and the next fresh id. -/
structure Workspace where
  lanceDirExists : Bool
  knowledge : Option KTable
  nextId : Nat
deriving Repr, DecidableEq

/-- External environment of a script invocation. -/
structure Env where
  lancedbInstalled : Bool
  apiKey : Option String
  providerOk : Bool
deriving Repr, DecidableEq

/-- The JSON result dict of `ingest_document`. -/
structure IngestResult where
  status : String
  error : Option String := none
  file : String := ""
  chunks_added : Nat := 0
  version : Option Nat := none
  total_rows : Option Nat := none
deriving Repr, DecidableEq

/-- Fuel passed to the chunking loop inside the ingest model.  A terminating
run of the Python loop takes at most `length + 2` iterations when the step
`max_words - overlap` is positive, one iteration when the first window is
short, and at most `length + 4` iterations when the step is negative (the
start index then marches below `-length`, where the slice becomes shorter
than `max_words` and the loop breaks); this bound dominates all of them, so
`none` from the loop coincides with genuine non-termination of the Python
code. -/
def ingestFuel (text : String) (m o : Nat) : Nat :=
  (pySplit text).length + m + o + 5

/-- Model of `ingest_document(workspace_path, file_path, text_content, chunk_size,
overlap)` (ingest.py lines 90-194).  The result is `none` when the call
never returns (the chunking loop diverges); otherwise `some` of the new
workspace state and the result dict.  Mirrored control flow: import check;
unconditional `lance_dir.mkdir(parents=True, exist_ok=True)`; API-key check;
embedding-function construction (provider failure is caught by the outer
`except` and reported, leaving the table untouched); open-or-create the
`knowledge` table; chunk; reject an empty chunk list; append one record per
chunk with ascending `chunk_index`, which bumps the table version. -/
def ingest_document (env : Env) (ws : Workspace) (file_path text_content : String)
    (chunk_size overlap : Nat) (now : String) : Option (Workspace × IngestResult) :=
  if ¬ env.lancedbInstalled then
    some (ws, { status := "error", error := some "lancedb not installed" })
  else
    let ws1 : Workspace := { ws with lanceDirExists := true }
    if env.apiKey.isNone then
      some (ws1, { status := "error", error := some "EMBEDDING_API_KEY or OPENAI_API_KEY not set" })
    else if ¬ env.providerOk then
      some (ws1, { status := "error", error := some "embedding provider error" })
    else
      let opened : Workspace × KTable :=
        match ws1.knowledge with
        | some t => (ws1, t)
        | none =>
          let t : KTable := { rows := [], version := 1 }
          ({ ws1 with knowledge := some t }, t)
      let ws2 := opened.1
      let table := opened.2
      match chunk_textF (ingestFuel text_content chunk_size overlap)
          text_content chunk_size overlap with
      | none => none
      | some chunks =>
        if chunks.isEmpty then
          some (ws2, { status := "error", error := some "No content to ingest", file := file_path })
        else
          let records := chunks.enum.map (fun p =>
            { id := ws2.nextId + p.1, text := p.2, source_file := file_path,
              page := 1, chunk_index := p.1, created_at := now : ChunkRecord })
          let table' : KTable := { rows := table.rows ++ records, version := table.version + 1 }
          let ws3 : Workspace :=
            { ws2 with knowledge := some table', nextId := ws2.nextId + records.length }
          some (ws3, { status := "ok", file := file_path, chunks_added := records.length,
                       version := some table'.version, total_rows := some table'.rows.length })

/-- The JSON result dict of `init_knowledge_base`. -/
structure InitResult where
  status : String
  error : Option String := none
  message : Option String := none
  already_exists : Bool := false
  version : Option Nat := none
deriving Repr, DecidableEq

/-- Model of `init_knowledge_base(workspace_path, ...)` (manage.py lines 288-398).
Mirrored control flow: import check; if the `.lance` directory exists and
holds a `knowledge` table, return `already_exists` without touching
anything; otherwise create the directory, check the API key, build the
embedding function (provider failure caught and reported), and create the
empty `knowledge` table. -/
def init_knowledge_base (env : Env) (ws : Workspace) : Workspace × InitResult :=
  if ¬ env.lancedbInstalled then
    (ws, { status := "error", error := some "lancedb not installed" })
  else if ws.lanceDirExists ∧ ws.knowledge.isSome then
    (ws, { status := "ok", message := some "Knowledge base already initialized",
           already_exists := true })
  else
    let ws1 : Workspace := { ws with lanceDirExists := true }
    if env.apiKey.isNone then
      (ws1, { status := "error", error := some "EMBEDDING_API_KEY or OPENAI_API_KEY not set" })
    else if ¬ env.providerOk then
      (ws1, { status := "error", error := some "embedding provider error" })
    else
      let t : KTable := { rows := [], version := 1 }
      ({ ws1 with knowledge := some t },
       { status := "ok", message := some "Knowledge base initialized",
         version := some t.version })

/-- The JSON result dict of `clear_knowledge`. -/
structure ClearResult where
  status : String
  error : Option String := none
  message : Option String := none
deriving Repr, DecidableEq

/-- Model of `clear_knowledge(workspace_path, confirm)` (manage.py lines 401-427).
Without `confirm` the call errors before doing anything; with it, the
`knowledge` table is dropped when the directory exists. -/
def clear_knowledge (env : Env) (ws : Workspace) (confirm : Bool) :
    Workspace × ClearResult :=
  if ¬ confirm then
    (ws, { status := "error", error := some "Must pass --confirm to clear data" })
  else if ¬ env.lancedbInstalled then
    (ws, { status := "error", error := some "lancedb not installed" })
  else if ¬ ws.lanceDirExists then
    (ws, { status := "ok", message := some "Nothing to clear" })
  else
    ({ ws with knowledge := none },
     { status := "ok", message := some "Knowledge base cleared" })

/-- Number of rows visible in the workspace's `knowledge` table. -/
def rowCount (ws : Workspace) : Nat :=
  match ws.knowledge with
  | none => 0
  | some t => t.rows.length

/-- The `(source_file, chunk_index)` pairs of all stored chunk records. -/
def storePairs (ws : Workspace) : List (String × Nat) :=
  match ws.knowledge with
  | none => []
  | some t => t.rows.map (fun r => (r.source_file, r.chunk_index))

/-- A fully working environment: `lancedb` importable, API key set,
embedding provider reachable. -/
def env0 : Env := { lancedbInstalled := true, apiKey := some "sk-test", providerOk := true }

/-- A workspace whose on-disk store is absent. -/
def wsAbsent : Workspace := { lanceDirExists := false, knowledge := none, nextId := 0 }

/-- A freshly initialized workspace: `.lance` exists with an empty
`knowledge` table at version 1. -/
def wsInit : Workspace :=
  { lanceDirExists := true, knowledge := some { rows := [], version := 1 }, nextId := 0 }

/-! ## Helper lemmas about the string primitives -/

/-- Well-formed token lists — what `str.split()` produces: every token is
nonempty and free of whitespace characters. -/
def Wf (ws : List String) : Prop :=
  ∀ w ∈ ws, w.data ≠ [] ∧ ∀ c ∈ w.data, c.isWhitespace = false

theorem wordsAux_wf : ∀ (cs cur : List Char),
    (∀ c ∈ cur, c.isWhitespace = false) → Wf (wordsAux cs cur)
  | [], cur, hcur => by
    simp only [wordsAux]
    split
    · intro w hw; simp at hw
    · next hne =>
      intro w hw
      simp only [List.mem_singleton] at hw
      subst hw
      refine ⟨?_, ?_⟩
      · show cur.reverse ≠ []
        intro h
        rw [List.reverse_eq_nil_iff] at h
        subst h
        simp at hne
      · intro c hc
        exact hcur c (List.mem_reverse.mp hc)
  | c :: cs, cur, hcur => by
    simp only [wordsAux]
    split
    · split
      · exact wordsAux_wf cs [] (by simp)
      · next hne =>
        intro w hw
        rcases List.mem_cons.mp hw with h | h
        · subst h
          refine ⟨?_, ?_⟩
          · show cur.reverse ≠ []
            intro h
            rw [List.reverse_eq_nil_iff] at h
            subst h
            simp at hne
          · intro x hx
            exact hcur x (List.mem_reverse.mp hx)
        · exact wordsAux_wf cs [] (by simp) w h
    · next hws =>
      refine wordsAux_wf cs (c :: cur) ?_
      intro x hx
      rcases List.mem_cons.mp hx with h | h
      · subst h; simpa using hws
      · exact hcur x h

theorem pySplit_wf (s : String) : Wf (pySplit s) :=
  wordsAux_wf s.data [] (by simp)

theorem wordsAux_ne_nil : ∀ (cs cur : List Char), cur ≠ [] → wordsAux cs cur ≠ []
  | [], cur, h => by
    simp only [wordsAux]
    split
    · next he => exact absurd (by simpa using he) h
    · simp
  | c :: cs, cur, h => by
    simp only [wordsAux]
    split
    · split
      · next he => exact absurd (by simpa using he) h
      · simp
    · exact wordsAux_ne_nil cs (c :: cur) (by simp)

theorem wordsAux_nil_all : ∀ (cs : List Char),
    wordsAux cs [] = [] → ∀ c ∈ cs, c.isWhitespace = true
  | [], _, c, hc => by simp at hc
  | c :: cs, h, x, hx => by
    simp only [wordsAux] at h
    by_cases hws : c.isWhitespace
    · rw [if_pos hws] at h
      simp only [List.isEmpty_nil, if_pos] at h
      rcases List.mem_cons.mp hx with h1 | h1
      · subst h1; exact hws
      · exact wordsAux_nil_all cs h x h1
    · rw [if_neg hws] at h
      exact absurd h (wordsAux_ne_nil cs [c] (by simp))

theorem stripList_eq_nil (cs : List Char)
    (h : ∀ c ∈ cs, c.isWhitespace = true) : stripList cs = [] := by
  unfold stripList
  rw [List.dropWhile_eq_nil_iff.mpr h]
  simp

theorem mem_of_head? {l : List Char} {c : Char} (h : l.head? = some c) : c ∈ l := by
  cases l with
  | nil => simp at h
  | cons a t => simp only [List.head?_cons, Option.some.injEq] at h; simp [h]

theorem dropWhile_eq_self_head (l : List Char)
    (h : ∀ c, l.head? = some c → c.isWhitespace = false) :
    l.dropWhile Char.isWhitespace = l := by
  cases l with
  | nil => rfl
  | cons a t =>
    rw [List.dropWhile_cons, h a (by simp)]
    simp

theorem joinWords_ne_nil : ∀ (w : String) (ws : List String),
    w.data ≠ [] → joinWords (w :: ws) ≠ []
  | w, [], h => by simpa [joinWords] using h
  | w, w' :: ws, h => by
    simp only [joinWords]
    intro hcon
    rcases List.append_eq_nil.mp hcon with ⟨h1, h2⟩
    · exact h h1

theorem head?_joinWords (w : String) (ws : List String) (h : w.data ≠ []) :
    (joinWords (w :: ws)).head? = w.data.head? := by
  cases ws with
  | nil => rfl
  | cons w' ws =>
    simp only [joinWords]
    cases hd : w.data with
    | nil => exact absurd hd h
    | cons a t => simp [hd]

theorem revhead_joinWords : ∀ (ws : List String), Wf ws →
    ∀ c, (joinWords ws).reverse.head? = some c → c.isWhitespace = false
  | [], _, c, hc => by simp [joinWords] at hc
  | [w], hwf, c, hc => by
    simp only [joinWords] at hc
    have := mem_of_head? hc
    rw [List.mem_reverse] at this
    exact (hwf w (by simp)).2 c this
  | w :: w' :: ws, hwf, c, hc => by
    have hwf' : Wf (w' :: ws) := fun x hx => hwf x (List.mem_cons_of_mem _ hx)
    have hne : joinWords (w' :: ws) ≠ [] :=
      joinWords_ne_nil w' ws (hwf' w' (by simp)).1
    refine revhead_joinWords (w' :: ws) hwf' c ?_
    simp only [joinWords, List.reverse_append, List.reverse_cons] at hc
    rw [List.head?_append_of_ne_nil] at hc
    · rw [List.head?_append_of_ne_nil] at hc
      · exact hc
      · simpa using hne
    · simp [hne]

theorem stripList_join_wf (ws : List String) (hwf : Wf ws) :
    stripList (joinWords ws) = joinWords ws := by
  cases ws with
  | nil => rfl
  | cons w tail =>
    have hhead : ∀ c, (joinWords (w :: tail)).head? = some c → c.isWhitespace = false := by
      intro c hc
      rw [head?_joinWords w tail (hwf w (by simp)).1] at hc
      exact (hwf w (by simp)).2 c (mem_of_head? hc)
    unfold stripList
    rw [dropWhile_eq_self_head (joinWords (w :: tail)) hhead,
      dropWhile_eq_self_head ((joinWords (w :: tail)).reverse)
        (revhead_joinWords (w :: tail) hwf),
      List.reverse_reverse]

theorem pyStrip_joinSpace (ws : List String) (hwf : Wf ws) :
    pyStrip (joinSpace ws) = joinSpace ws := by
  show (⟨stripList (joinWords ws)⟩ : String) = ⟨joinWords ws⟩
  rw [stripList_join_wf ws hwf]

theorem wordsAux_append_no_ws : ∀ (cs rest cur : List Char),
    (∀ c ∈ cs, c.isWhitespace = false) →
    wordsAux (cs ++ rest) cur = wordsAux rest (cs.reverse ++ cur)
  | [], rest, cur, _ => by simp
  | c :: cs, rest, cur, h => by
    simp only [List.cons_append, wordsAux, List.append_eq]
    rw [if_neg (by simp [h c (by simp)])]
    rw [wordsAux_append_no_ws cs rest (c :: cur) (fun x hx => h x (by simp [hx]))]
    simp [List.append_assoc]

theorem pySplit_joinSpace : ∀ (ws : List String), Wf ws → pySplit (joinSpace ws) = ws
  | [], _ => rfl
  | [w], hwf => by
    show wordsAux (joinWords [w]) [] = [w]
    have hne : w.data ≠ [] := (hwf w (by simp)).1
    have hnws : ∀ c ∈ w.data, c.isWhitespace = false := (hwf w (by simp)).2
    show wordsAux w.data [] = [w]
    have := wordsAux_append_no_ws w.data [] [] hnws
    rw [List.append_nil] at this
    rw [this]
    simp only [wordsAux, List.append_nil]
    rw [if_neg (by simpa using hne)]
    simp
  | w :: w' :: ws, hwf => by
    show wordsAux (joinWords (w :: w' :: ws)) [] = w :: w' :: ws
    have hne : w.data ≠ [] := (hwf w (by simp)).1
    have hnws : ∀ c ∈ w.data, c.isWhitespace = false := (hwf w (by simp)).2
    have hwf' : Wf (w' :: ws) := fun x hx => hwf x (List.mem_cons_of_mem _ hx)
    show wordsAux (w.data ++ ' ' :: joinWords (w' :: ws)) [] = w :: w' :: ws
    rw [wordsAux_append_no_ws w.data (' ' :: joinWords (w' :: ws)) [] hnws]
    simp only [wordsAux, List.append_nil]
    rw [if_pos (by decide)]
    rw [if_neg (by simpa using hne)]
    have hrec := pySplit_joinSpace (w' :: ws) hwf'
    show (⟨w.data.reverse.reverse⟩ : String) :: wordsAux (joinWords (w' :: ws)) [] =
      w :: w' :: ws
    rw [List.reverse_reverse]
    exact congrArg (fun l => w :: l) hrec

theorem pySlice_nat (xs : List String) (i m : Nat) :
    pySlice xs (i : Int) ((i : Int) + (m : Int)) = (xs.drop i).take m := by
  unfold pySlice pyClamp
  have h1 : ¬ ((i : Int) < 0) := by omega
  have h2 : ¬ ((i : Int) + (m : Int) < 0) := by omega
  rw [if_neg h1, if_neg h2]
  have h3 : (i : Int).toNat = i := rfl
  have h4 : ((i : Int) + (m : Int)).toNat = i + m := by omega
  rw [h3, h4]
  by_cases h : i ≤ xs.length
  · rw [Nat.min_eq_left h]
    refine List.take_eq_take.mpr ?_
    simp only [List.length_drop]
    omega
  · have hd2 : xs.drop i = [] := List.drop_eq_nil_of_le (by omega)
    have hmin : min i xs.length = xs.length := by omega
    simp [hmin, List.drop_length, hd2]

theorem pySlice_nat_length (xs : List String) (i m : Nat) :
    (pySlice xs (i : Int) ((i : Int) + (m : Int))).length = min m (xs.length - i) := by
  rw [pySlice_nat]
  simp [List.length_take, List.length_drop]

theorem wf_slice {ws : List String} (hwf : Wf ws) (i k : Nat) :
    Wf ((ws.drop i).take k) := fun w hw =>
  hwf w (List.mem_of_mem_drop (List.mem_of_mem_take hw))

/-- Main specification of the chunking loop for the well-behaved parameter
range `overlap < max_words`: with enough fuel the loop returns, its output
is the accumulator followed by the single-space joins of a sequence of token
windows `wins`, every window is a contiguous slice of the input tokens,
concatenating the first window with every later window minus its first
`overlap` tokens (the overlap with its predecessor) rebuilds the token list
from position `i`, and the last window runs to the end of the input. -/
theorem chunkLoop_spec (words : List String) (m o : Nat) (hom : o < m) (hwf : Wf words) :
    ∀ (fuel : Nat), ∀ (i : Nat) (acc : List String),
      words.length + 1 ≤ i + fuel → 1 ≤ fuel →
      ∃ wins : List (List String),
        chunkLoop words m o fuel (i : Int) acc = some (acc ++ wins.map joinSpace) ∧
        (∀ w ∈ wins, ∃ j k, w = (words.drop j).take k) ∧
        (words.length ≤ i → wins = []) ∧
        (i < words.length →
          wins ≠ [] ∧
          joinD o wins = words.drop i ∧
          (wins.map (List.drop o)).flatten = words.drop (i + o) ∧
          ∃ j, i ≤ j ∧ j < words.length ∧ wins.getLast? = some (words.drop j)) := by
  intro fuel
  induction fuel with
  | zero => intro i acc h1 h2; omega
  | succ fuel ih =>
    intro i acc hfi _
    by_cases hin : i < words.length
    · have hm1 : 1 ≤ m := by omega
      have hcond : ((i : Int) < (words.length : Int)) := by exact_mod_cast hin
      have hcw : pySlice words (i : Int) ((i : Int) + (m : Int)) = (words.drop i).take m :=
        pySlice_nat words i m
      have hlen : (pySlice words (i : Int) ((i : Int) + (m : Int))).length =
          min m (words.length - i) := pySlice_nat_length words i m
      have hwfcw : Wf ((words.drop i).take m) := wf_slice hwf i m
      have hcwne : (words.drop i).take m ≠ [] := by
        intro hnil
        have := congrArg List.length hnil
        rw [← hcw, hlen] at this
        simp at this
        omega
      have hjoin : pyStrip (joinSpace ((words.drop i).take m)) =
          joinSpace ((words.drop i).take m) := pyStrip_joinSpace _ hwfcw
      have hdata : (joinSpace ((words.drop i).take m)).data ≠ [] := by
        show joinWords ((words.drop i).take m) ≠ []
        cases hc : (words.drop i).take m with
        | nil => exact absurd hc hcwne
        | cons w tl =>
          exact joinWords_ne_nil w tl (hwfcw w (by rw [hc]; simp)).1
      have hne : ¬ ((joinSpace ((words.drop i).take m)).data.isEmpty = true) := by
        simpa using hdata
      have hlen2 : ((words.drop i).take m).length = min m (words.length - i) := by
        simp [List.length_take, List.length_drop]
      simp only [chunkLoop]
      rw [if_pos hcond]
      simp only [hcw, hjoin]
      by_cases hbreak : ((words.drop i).take m).length < m
      · -- short window: the loop breaks after emitting it
        have hshort : words.length - i < m := by
          rw [hlen2] at hbreak; omega
        rw [if_pos hbreak, if_neg hne]
        have hcwall : (words.drop i).take m = words.drop i :=
          List.take_of_length_le (by simp [List.length_drop]; omega)
        refine ⟨[words.drop i], ?_, ?_, ?_, ?_⟩
        · simp [hcwall]
        · exact fun w hw => ⟨i, m, by simp only [List.mem_singleton] at hw; rw [hw, hcwall]⟩
        · intro h; omega
        · intro _
          refine ⟨by simp, by simp [joinD], ?_, i, le_refl i, hin, by simp⟩
          simp only [List.map_cons, List.map_nil, List.flatten_cons, List.flatten_nil,
            List.append_nil]
          rw [List.drop_drop]
      · -- full window: the loop advances by m - o
        have hfull : m ≤ words.length - i := by
          rw [hlen2] at hbreak; omega
        have him : i + m ≤ words.length := by omega
        rw [if_neg hbreak, if_neg hne]
        have harith : (i : Int) + ((m : Int) - (o : Int)) = (((i + (m - o)) : Nat) : Int) := by
          omega
        rw [harith]
        obtain ⟨wins', hrec, hsl', hge', hlt'⟩ :=
          ih (i + (m - o)) (acc ++ [joinSpace ((words.drop i).take m)]) (by omega) (by omega)
        refine ⟨(words.drop i).take m :: wins', ?_, ?_, ?_, ?_⟩
        · rw [hrec]; simp
        · intro w hw
          rcases List.mem_cons.mp hw with h | h
          · exact ⟨i, m, h⟩
          · exact hsl' w h
        · intro h; omega
        · intro _
          by_cases hi' : i + (m - o) < words.length
          · obtain ⟨hne', hjd', hfl', j', hj'1, hj'2, hj'3⟩ := hlt' hi'
            refine ⟨by simp, ?_, ?_, j', by omega, hj'2, ?_⟩
            · show (words.drop i).take m ++ (wins'.map (List.drop o)).flatten = words.drop i
              rw [hfl']
              have h0 : i + (m - o) + o = i + m := by omega
              rw [h0, ← List.drop_drop, List.take_append_drop]
            · show ((words.drop i).take m).drop o ++ (wins'.map (List.drop o)).flatten =
                words.drop (i + o)
              rw [hfl', List.drop_take, List.drop_drop]
              have h1 : i + (m - o) + o = i + o + (m - o) := by omega
              have h2 : List.drop (m - o) (List.drop (i + o) words) =
                  List.drop (i + o + (m - o)) words := List.drop_drop _ _ _
              rw [h1, ← h2, List.take_append_drop]
            · cases wins' with
              | nil => exact absurd rfl hne'
              | cons b t => rw [List.getLast?_cons_cons]; exact hj'3
          · have hw' : wins' = [] := hge' (by omega)
            subst hw'
            have ho0 : o = 0 ∧ i + m = words.length := by omega
            have hcwall : (words.drop i).take m = words.drop i :=
              List.take_of_length_le (by simp [List.length_drop]; omega)
            refine ⟨by simp, by simp [joinD, hcwall], ?_, i, le_refl i, hin, by simp [hcwall]⟩
            simp only [List.map_cons, List.map_nil, List.flatten_cons, List.flatten_nil,
              List.append_nil]
            rw [hcwall, List.drop_drop]
    · have hcond : ¬ ((i : Int) < (words.length : Int)) := by exact_mod_cast hin
      simp only [chunkLoop]
      rw [if_neg hcond]
      exact ⟨[], by simp, by simp, fun _ => rfl, fun h => absurd h hin⟩

theorem pySplit_nil_strip (s : String) (h : pySplit s = []) : stripList s.data = [] :=
  stripList_eq_nil s.data (wordsAux_nil_all s.data h)

/-- Every string the loop ever appends is the single-space join of a
contiguous slice of the token list (regardless of the chunk parameters). -/
theorem chunkLoop_slices (words : List String) (m o : Nat) (hwf : Wf words) :
    ∀ (fuel : Nat) (i : Int) (acc r : List String),
      (∀ c ∈ acc, ∃ j k, c = joinSpace ((words.drop j).take k)) →
      chunkLoop words m o fuel i acc = some r →
      ∀ c ∈ r, ∃ j k, c = joinSpace ((words.drop j).take k) := by
  intro fuel
  induction fuel with
  | zero => intro i acc r _ h; simp [chunkLoop] at h
  | succ fuel ih =>
    intro i acc r hacc h
    simp only [chunkLoop] at h
    by_cases hc : i < (words.length : Int)
    · rw [if_pos hc] at h
      have hsl : ∃ j k, pySlice words i (i + (m : Int)) = (words.drop j).take k :=
        ⟨pyClamp words.length i,
         pyClamp words.length (i + (m : Int)) - pyClamp words.length i, rfl⟩
      have hacc' : ∀ c ∈ (if (pyStrip (joinSpace (pySlice words i (i + (m : Int))))).data.isEmpty =
            true then acc
          else acc ++ [pyStrip (joinSpace (pySlice words i (i + (m : Int))))]),
          ∃ j k, c = joinSpace ((words.drop j).take k) := by
        split
        · exact hacc
        · intro c hcmem
          rcases List.mem_append.mp hcmem with h1 | h1
          · exact hacc c h1
          · simp only [List.mem_singleton] at h1
            subst h1
            obtain ⟨j, k, hjk⟩ := hsl
            rw [hjk, pyStrip_joinSpace _ (wf_slice hwf j k)]
            exact ⟨j, k, rfl⟩
      by_cases hlen : (pySlice words i (i + (m : Int))).length < m
      · rw [if_pos hlen] at h
        rcases h with ⟨rfl⟩
        exact hacc'
      · rw [if_neg hlen] at h
        exact ih _ _ _ hacc' h
    · rw [if_neg hc] at h
      rcases h with ⟨rfl⟩
      exact hacc

/-- The loop only ever appends to its accumulator. -/
theorem chunkLoop_prefix (words : List String) (m o : Nat) :
    ∀ (fuel : Nat) (i : Int) (acc r : List String),
      chunkLoop words m o fuel i acc = some r → ∃ t, r = acc ++ t := by
  intro fuel
  induction fuel with
  | zero => intro i acc r h; simp [chunkLoop] at h
  | succ fuel ih =>
    intro i acc r h
    simp only [chunkLoop] at h
    by_cases hc : i < (words.length : Int)
    · rw [if_pos hc] at h
      by_cases hlen : (pySlice words i (i + (m : Int))).length < m
      · rw [if_pos hlen] at h
        rcases h with ⟨rfl⟩
        split
        · exact ⟨[], by simp⟩
        · exact ⟨_, rfl⟩
      · rw [if_neg hlen] at h
        obtain ⟨t, ht⟩ := ih _ _ _ h
        revert ht
        split
        · exact fun ht => ⟨t, ht⟩
        · exact fun ht =>
            ⟨[pyStrip (joinSpace (pySlice words i (i + (m : Int))))] ++ t,
             by rw [ht, List.append_assoc]⟩
    · rw [if_neg hc] at h
      rcases h with ⟨rfl⟩
      exact ⟨[], by simp⟩

/-- With `max_words = 0` on a nonempty token list the loop never
terminates: every window is empty, nothing is appended, the break
condition `len(chunk_words) < max_words` is `0 < 0`, and the start index
never increases. -/
theorem chunkLoop_m0 (words : List String) (o : Nat) (hw : words ≠ []) :
    ∀ (fuel : Nat) (i : Int), i ≤ 0 → ∀ acc,
      chunkLoop words 0 o fuel i acc = none := by
  intro fuel
  induction fuel with
  | zero => intro i _ acc; rfl
  | succ fuel ih =>
    intro i hi acc
    have hpos : 0 < words.length := List.length_pos.mpr hw
    have hc : i < (words.length : Int) := by omega
    have hcw : pySlice words i (i + ((0 : Nat) : Int)) = [] := by
      simp [pySlice]
    simp only [chunkLoop]
    rw [if_pos hc, hcw]
    rw [if_pos (show (pyStrip (joinSpace [])).data.isEmpty = true from rfl)]
    rw [if_neg (by simp)]
    exact ih (i + (((0 : Nat) : Int) - (o : Int))) (by omega) acc

/-- Starting from an empty accumulator on a nonempty token list with
`max_words ≥ 1`, a terminating loop always emits at least one chunk. -/
theorem chunkLoop_zero_ne_nil (words : List String) (m o : Nat) (hwf : Wf words)
    (hw : words ≠ []) (hm : 1 ≤ m) :
    ∀ (fuel : Nat) (r : List String),
      chunkLoop words m o fuel (0 : Int) [] = some r → r ≠ [] := by
  intro fuel r h
  cases fuel with
  | zero => simp [chunkLoop] at h
  | succ fuel =>
    have hpos : 0 < words.length := List.length_pos.mpr hw
    have hc : (0 : Int) < (words.length : Int) := by omega
    have hcw : pySlice words (0 : Int) ((0 : Int) + (m : Int)) = words.take m := by
      have := pySlice_nat words 0 m
      simpa using this
    have hwfcw : Wf (words.take m) := by
      have := wf_slice hwf 0 m
      simpa using this
    have hcwne : words.take m ≠ [] := by
      intro hnil
      have h0 : (words.take m).length = 0 := by rw [hnil]; rfl
      rw [List.length_take] at h0
      omega
    have hjoin : pyStrip (joinSpace (words.take m)) = joinSpace (words.take m) :=
      pyStrip_joinSpace _ hwfcw
    have hdata : (joinSpace (words.take m)).data ≠ [] := by
      show joinWords (words.take m) ≠ []
      cases hcase : words.take m with
      | nil => exact absurd hcase hcwne
      | cons w tl => exact joinWords_ne_nil w tl (hwfcw w (by rw [hcase]; simp)).1
    simp only [chunkLoop] at h
    rw [if_pos hc, hcw, hjoin] at h
    have hne2 : ¬ ((joinSpace (words.take m)).data.isEmpty = true) := by
      simpa using hdata
    by_cases hlen : (words.take m).length < m
    · rw [if_pos hlen, if_neg hne2] at h
      rcases h with ⟨rfl⟩
      simp
    · rw [if_neg hlen, if_neg hne2] at h
      obtain ⟨t, ht⟩ := chunkLoop_prefix words m o fuel _ _ _ h
      rw [ht]
      simp

theorem wordsAux_all_ws : ∀ (cs : List Char),
    (∀ c ∈ cs, c.isWhitespace = true) → wordsAux cs [] = []
  | [], _ => rfl
  | c :: cs, h => by
    have hc := h c (by simp)
    simp only [wordsAux, hc, List.isEmpty_nil, if_true]
    exact wordsAux_all_ws cs (fun x hx => h x (by simp [hx]))

/-- With `max_words = 1` and `overlap = 1` on the two-token input "a b",
the loop emits "a" forever: the step `max_words - overlap` is zero, so the
start index never moves and no fuel is ever enough. -/
theorem chunkLoop_ab_11 : ∀ (fuel : Nat) (acc : List String),
    chunkLoop (pySplit "a b") 1 1 fuel 0 acc = none := by
  intro fuel
  induction fuel with
  | zero => intro acc; rfl
  | succ fuel ih =>
    intro acc
    have hstep : chunkLoop (pySplit "a b") 1 1 (fuel + 1) 0 acc =
        chunkLoop (pySplit "a b") 1 1 fuel 0 (acc ++ ["a"]) := rfl
    rw [hstep, ih]

/-! ## Claim theorems -/

/-- Claim C1, counterexample: on the input "a b c d e f" with max_words 4
and overlap 2, `chunk_text` does NOT return the claimed two-element
sequence — the second window (tokens 2-5) holds exactly `max_words` tokens,
so the break does not fire, the start advances to 4 (still inside the
list), and a third chunk "e f" is emitted. -/
theorem chunk_example_counterexample :
    chunk_textF 7 "a b c d e f" 4 2 = some ["a b c d", "c d e f", "e f"] ∧
    (["a b c d", "c d e f", "e f"] : List String) ≠ ["a b c d", "c d e f"] :=
  ⟨by decide, by decide⟩

/-- Claim C1, amended: `chunk_text("a b c d e f", max_words=4, overlap=2)`
returns the three-element sequence ["a b c d", "c d e f", "e f"]: the
window starts at 0, advances by 2, and because the window at start 2 is
exactly full, chunking continues with a final short window at start 4
before stopping. -/
theorem chunk_example_amended :
    chunk_textF 7 "a b c d e f" 4 2 = some ["a b c d", "c d e f", "e f"] := by
  decide

/-- Claim C2: for every text and chunk parameters with overlap < max_words,
chunking terminates (fuel `token count + 1` suffices); concatenating, in
order, the first chunk's tokens and every later chunk's tokens minus its
first `overlap` tokens (its overlap with the predecessor) reproduces the
input's token sequence; and the final chunk's tokens are a tail segment of
the input's tokens. -/
theorem chunk_text_reconstruction (text : String) (m o : Nat) (hom : o < m) :
    ∃ chunks : List String,
      chunk_textF ((pySplit text).length + 1) text m o = some chunks ∧
      joinD o (chunks.map pySplit) = pySplit text ∧
      (pySplit text ≠ [] →
        ∃ c j, chunks.getLast? = some c ∧ pySplit c = (pySplit text).drop j) := by
  obtain ⟨wins, hloop, hslices, hge, hlt⟩ :=
    chunkLoop_spec (pySplit text) m o hom (pySplit_wf text)
      ((pySplit text).length + 1) 0 [] (by omega) (by omega)
  have hloop' : chunkLoop (pySplit text) m o ((pySplit text).length + 1) (0 : Int) [] =
      some (wins.map joinSpace) := by simpa using hloop
  by_cases hw : pySplit text = []
  · have hwins : wins = [] := hge (by rw [hw]; simp)
    subst hwins
    refine ⟨[], ?_, by simp [joinD, hw], fun h => absurd hw h⟩
    have hstrip : (pyStrip text).data = [] := pySplit_nil_strip text hw
    unfold chunk_textF
    rw [hloop']
    simp [hstrip]
  · have hn : 0 < (pySplit text).length := List.length_pos.mpr hw
    obtain ⟨hne, hjoin, hflat, j, hij, hjn, hlast⟩ := hlt hn
    have hmapback : (wins.map joinSpace).map pySplit = wins := by
      rw [List.map_map]
      conv_rhs => rw [← List.map_id wins]
      refine List.map_congr_left ?_
      intro w hwmem
      obtain ⟨j', k', hjk⟩ := hslices w hwmem
      show pySplit (joinSpace w) = w
      rw [hjk]
      exact pySplit_joinSpace _ (wf_slice (pySplit_wf text) j' k')
    refine ⟨wins.map joinSpace, ?_, ?_, ?_⟩
    · have hne2 : (wins.map joinSpace).isEmpty = false := by
        cases wins with
        | nil => exact absurd rfl hne
        | cons a t => rfl
      unfold chunk_textF
      rw [hloop']
      simp [hne2]
    · rw [hmapback]
      simpa using hjoin
    · intro _
      refine ⟨joinSpace ((pySplit text).drop j), j, ?_, ?_⟩
      · rw [List.getLast?_map, hlast]
        rfl
      · exact pySplit_joinSpace _
          (fun w hw2 => pySplit_wf text w (List.mem_of_mem_drop hw2))

/-- Witness for C2 at the concrete input "a b c d e f" with max_words 4,
overlap 2. -/
theorem chunk_text_reconstruction_witness :
    ∃ chunks : List String,
      chunk_textF ((pySplit "a b c d e f").length + 1) "a b c d e f" 4 2 = some chunks ∧
      joinD 2 (chunks.map pySplit) = pySplit "a b c d e f" ∧
      (pySplit "a b c d e f" ≠ [] →
        ∃ c j, chunks.getLast? = some c ∧ pySplit c = (pySplit "a b c d e f").drop j) :=
  chunk_text_reconstruction "a b c d e f" 4 2 (by decide)

/-- Claim C3, counterexample: a call with overlap (5) ≥ max_words (2) is
not rejected — `chunk_text` has no error channel at all and returns a
normal one-chunk list on the one-token input "a", and `ingest_document`
passes the parameters through unchecked, reporting status "ok". -/
theorem overlap_not_rejected_counterexample :
    chunk_textF 5 "a" 2 5 = some ["a"] ∧
    (ingest_document env0 wsInit "d.txt" "hi" 2 5 "t").map (fun p => p.2.status) =
      some "ok" :=
  ⟨by decide, by decide⟩

/-- Claim C3, amended: neither `chunk_text` nor `ingest_document` validates
`overlap < max_words`.  A call with overlap ≥ max_words on input with fewer
than max_words tokens completes normally, returning its chunks (first
conjunct, for every fuel); with overlap = max_words and at least max_words
tokens the loop never advances and never terminates (second conjunct: no
fuel makes it return); and ingest reports status "ok" rather than any
InvalidArgument error (third conjunct). -/
theorem overlap_no_validation :
    (∀ fuel : Nat, chunk_textF (fuel + 1) "a" 2 5 = some ["a"]) ∧
    (∀ fuel : Nat, chunk_textF fuel "a b" 1 1 = none) ∧
    (ingest_document env0 wsInit "d.txt" "hi" 2 5 "t").map (fun p => p.2.status) =
      some "ok" := by
  refine ⟨fun fuel => rfl, fun fuel => ?_, by decide⟩
  unfold chunk_textF
  rw [chunkLoop_ab_11 fuel []]

/-- Claim C6: `chunk_text` on empty or whitespace-only input (every
character whitespace) returns the empty sequence; on nonempty input with
fewer than max_words tokens it returns exactly one chunk, the single-space
join of all of the input's tokens (whose token list is the full input token
list). -/
theorem chunk_text_degenerate (text : String) (m o : Nat) :
    ((∀ c ∈ text.data, c.isWhitespace = true) →
      chunk_textF ((pySplit text).length + 1) text m o = some []) ∧
    (0 < (pySplit text).length → (pySplit text).length < m →
      chunk_textF ((pySplit text).length + 1) text m o = some [joinSpace (pySplit text)] ∧
      pySplit (joinSpace (pySplit text)) = pySplit text) := by
  constructor
  · intro hws
    have hsplit : pySplit text = [] := wordsAux_all_ws text.data hws
    have hstrip : (pyStrip text).data = [] := pySplit_nil_strip text hsplit
    have hloop : chunkLoop ([] : List String) m o 1 0 [] = some [] := by
      simp only [chunkLoop]
      rw [if_neg (by simp)]
    unfold chunk_textF
    rw [hsplit]
    simp only [List.length_nil, Nat.zero_add]
    rw [hloop]
    simp [hstrip]
  · intro hn hm
    have hwf := pySplit_wf text
    have hwne : pySplit text ≠ [] := by
      intro h0
      rw [h0] at hn
      simp at hn
    constructor
    · have hc : (0 : Int) < ((pySplit text).length : Int) := by exact_mod_cast hn
      have hcw : pySlice (pySplit text) (0 : Int) ((0 : Int) + (m : Int)) =
          (pySplit text).take m := by
        have := pySlice_nat (pySplit text) 0 m
        simpa using this
      have hall : (pySplit text).take m = pySplit text :=
        List.take_of_length_le (by omega)
      have hdata : (joinSpace (pySplit text)).data ≠ [] := by
        show joinWords (pySplit text) ≠ []
        cases hcase : pySplit text with
        | nil => exact absurd hcase hwne
        | cons w tl => exact joinWords_ne_nil w tl (hwf w (by rw [hcase]; simp)).1
      have hjoin : pyStrip (joinSpace (pySplit text)) = joinSpace (pySplit text) :=
        pyStrip_joinSpace _ hwf
      unfold chunk_textF
      simp only [chunkLoop]
      rw [if_pos hc, hcw, hall, hjoin]
      rw [if_pos hm, if_neg (by simpa using hdata)]
      simp
    · exact pySplit_joinSpace (pySplit text) hwf

/-- Witness for C6: whitespace-only input "  \t " yields the empty
sequence; the two-token input "a b" with max_words 3 yields exactly one
chunk. -/
theorem chunk_text_degenerate_witness :
    chunk_textF ((pySplit "  \t ").length + 1) "  \t " 3 1 = some [] ∧
    chunk_textF ((pySplit "a b").length + 1) "a b" 3 1 = some [joinSpace (pySplit "a b")] :=
  ⟨(chunk_text_degenerate "  \t " 3 1).1 (by decide),
   ((chunk_text_degenerate "a b" 3 1).2 (by decide) (by decide)).1⟩

/-- Claim C9 (implicit): every chunk `chunk_text` emits — for any input,
any parameters, and any terminating run — equals the single-space join of
a contiguous slice of the input's whitespace-split token list; the source
text's original spacing, newlines, and surrounding whitespace never survive
inside a chunk. -/
theorem chunk_text_normalized (text : String) (m o fuel : Nat) (chunks : List String)
    (h : chunk_textF fuel text m o = some chunks) :
    ∀ c ∈ chunks, ∃ j k, c = joinSpace (((pySplit text).drop j).take k) := by
  unfold chunk_textF at h
  cases hl : chunkLoop (pySplit text) m o fuel 0 [] with
  | none => rw [hl] at h; exact absurd h (by simp)
  | some loopr =>
    rw [hl] at h
    simp only [Option.some.injEq] at h
    by_cases hnil : loopr = []
    · subst hnil
      by_cases hw : pySplit text = []
      · have hstrip : (pyStrip text).data = [] := pySplit_nil_strip text hw
        rw [← h]
        simp [hstrip]
      · rcases Nat.eq_zero_or_pos m with hm0 | hm1
        · subst hm0
          have hnone := chunkLoop_m0 (pySplit text) o hw fuel 0 (by omega) []
          rw [hnone] at hl
          exact absurd hl (by simp)
        · exact absurd rfl
            (chunkLoop_zero_ne_nil (pySplit text) m o (pySplit_wf text) hw hm1 fuel [] hl)
    · have hchunks : chunks = loopr := by
        rw [← h]
        simp [hnil]
      rw [hchunks]
      exact chunkLoop_slices (pySplit text) m o (pySplit_wf text) fuel 0 [] loopr
        (by simp) hl

/-- Witness for C9: the chunk "a b" of `chunk_text("a  b\tc d", 2, 1)` is a
join of a token slice of the input. -/
theorem chunk_text_normalized_witness :
    ∃ j k, "a b" = joinSpace (((pySplit "a  b\tc d").drop j).take k) :=
  chunk_text_normalized "a  b\tc d" 2 1 9 ["a b", "b c", "c d", "d"] (by decide)
    "a b" (by decide)

/-- An environment in which `lancedb` imports but no embedding API key is
set. -/
def envNoKey : Env := { lancedbInstalled := true, apiKey := none, providerOk := true }

/-- Claim C4, counterexample: on a workspace whose store is absent,
`ingest_document` (with lancedb, credentials, and provider available) does
NOT fail with a NotInitialized error — it reports status "ok" — and it DOES
create the store: afterwards the .lance directory exists and the knowledge
table is present. -/
theorem ingest_absent_counterexample :
    (ingest_document env0 wsAbsent "doc.txt" "hello world" 4 2 "t0").map
      (fun p => (p.2.status, p.1.lanceDirExists, p.1.knowledge.isSome)) =
      some ("ok", true, true) ∧
    ("ok" : String) ≠ "error" :=
  ⟨by decide, by decide⟩

/-- Claim C4, amended: when the on-disk store is absent, ingest does not
fail fast; it creates the `.lance` directory and the knowledge table, and
(given lancedb, credentials, a working provider, overlap < max_words and
nonempty token content) completes with status "ok". -/
theorem ingest_absent_creates_store (env : Env) (ws : Workspace)
    (fp text now : String) (m o : Nat)
    (henv : env.lancedbInstalled = true) (hkey : env.apiKey.isSome = true)
    (hprov : env.providerOk = true) (habs : ws.knowledge = none)
    (hom : o < m) (htext : pySplit text ≠ []) :
    ∃ ws' r, ingest_document env ws fp text m o now = some (ws', r) ∧
      r.status = "ok" ∧ ws'.lanceDirExists = true ∧ ws'.knowledge.isSome = true := by
  have hkn : env.apiKey.isNone = false := by
    cases hk : env.apiKey with
    | none => rw [hk] at hkey; simp at hkey
    | some k => rfl
  have hn : 0 < (pySplit text).length := List.length_pos.mpr htext
  obtain ⟨wins, hloop, -, -, hlt⟩ :=
    chunkLoop_spec (pySplit text) m o hom (pySplit_wf text)
      (ingestFuel text m o) 0 [] (by unfold ingestFuel; omega) (by unfold ingestFuel; omega)
  obtain ⟨hwne, -, -, -⟩ := hlt hn
  have hloop' : chunkLoop (pySplit text) m o (ingestFuel text m o) (0 : Int) [] =
      some (wins.map joinSpace) := by simpa using hloop
  have hne2 : (wins.map joinSpace).isEmpty = false := by
    cases wins with
    | nil => exact absurd rfl hwne
    | cons a t => rfl
  have hchunks : chunk_textF (ingestFuel text m o) text m o = some (wins.map joinSpace) := by
    unfold chunk_textF
    rw [hloop']
    simp [hne2]
  have hstat : (ingest_document env ws fp text m o now).map (fun p => p.2.status) =
      some "ok" := by
    simp only [ingest_document]
    rw [if_neg (by simp [henv]), if_neg (by simp [hkn]), if_neg (by simp [hprov])]
    simp only [habs, hchunks, hne2]
    rfl
  have hdir : (ingest_document env ws fp text m o now).map (fun p => p.1.lanceDirExists) =
      some true := by
    simp only [ingest_document]
    rw [if_neg (by simp [henv]), if_neg (by simp [hkn]), if_neg (by simp [hprov])]
    simp only [habs, hchunks, hne2]
    rfl
  have hks : (ingest_document env ws fp text m o now).map (fun p => p.1.knowledge.isSome) =
      some true := by
    simp only [ingest_document]
    rw [if_neg (by simp [henv]), if_neg (by simp [hkn]), if_neg (by simp [hprov])]
    simp only [habs, hchunks, hne2]
    rfl
  cases hres : ingest_document env ws fp text m o now with
  | none => rw [hres] at hstat; exact absurd hstat (by simp)
  | some p =>
    rw [hres] at hstat hdir hks
    simp only [Option.map_some', Option.some.injEq] at hstat hdir hks
    exact ⟨p.1, p.2, rfl, hstat, hdir, hks⟩

/-- Witness for the amended C4 at a concrete absent-store workspace. -/
theorem ingest_absent_creates_store_witness :
    ∃ ws' r, ingest_document env0 wsAbsent "doc.txt" "hello world" 4 2 "t0" = some (ws', r) ∧
      r.status = "ok" ∧ ws'.lanceDirExists = true ∧ ws'.knowledge.isSome = true :=
  ingest_absent_creates_store env0 wsAbsent "doc.txt" "hello world" "t0" 4 2
    rfl rfl rfl rfl (by decide) (by decide)

/-- Claim C5, counterexample: ingesting the same source file twice into an
initialized store yields two records both carrying the pair
("doc.txt", 0) — the store-wide uniqueness of (source_file, chunk_index)
is violated by the second ingest. -/
theorem pairs_unique_counterexample :
    ((ingest_document env0 wsInit "doc.txt" "hello world" 500 100 "t1").bind
      (fun p => ingest_document env0 p.1 "doc.txt" "hello world" 500 100 "t2")).map
      (fun p => storePairs p.1) = some [("doc.txt", 0), ("doc.txt", 0)] ∧
    ¬ ([(("doc.txt" : String), (0 : Nat)), ("doc.txt", 0)] : List (String × Nat)).Nodup :=
  ⟨by decide, by decide⟩

/-- Claim C5, amended: the records added by one ingest call have pairwise
distinct (source_file, chunk_index) pairs — the chunk_index values ascend
0, 1, 2, … within the batch — but the call merely appends them to the
existing rows, so re-ingesting a source_file that already has chunks
creates duplicate pairs across batches. -/
theorem ingest_batch_pairs_nodup (env : Env) (ws : Workspace) (t : KTable)
    (fp text now : String) (m o : Nat)
    (henv : env.lancedbInstalled = true) (hkey : env.apiKey.isSome = true)
    (hprov : env.providerOk = true) (hkw : ws.knowledge = some t)
    (hom : o < m) (htext : pySplit text ≠ []) :
    ∃ recs ws' r, ingest_document env ws fp text m o now = some (ws', r) ∧
      ws'.knowledge = some { rows := t.rows ++ recs, version := t.version + 1 } ∧
      (recs.map (fun rc => (rc.source_file, rc.chunk_index))).Nodup := by
  have hkn : env.apiKey.isNone = false := by
    cases hk : env.apiKey with
    | none => rw [hk] at hkey; simp at hkey
    | some k => rfl
  have hn : 0 < (pySplit text).length := List.length_pos.mpr htext
  obtain ⟨wins, hloop, -, -, hlt⟩ :=
    chunkLoop_spec (pySplit text) m o hom (pySplit_wf text)
      (ingestFuel text m o) 0 [] (by unfold ingestFuel; omega) (by unfold ingestFuel; omega)
  obtain ⟨hwne, -, -, -⟩ := hlt hn
  have hloop' : chunkLoop (pySplit text) m o (ingestFuel text m o) (0 : Int) [] =
      some (wins.map joinSpace) := by simpa using hloop
  have hne2 : (wins.map joinSpace).isEmpty = false := by
    cases wins with
    | nil => exact absurd rfl hwne
    | cons a t => rfl
  have hchunks : chunk_textF (ingestFuel text m o) text m o = some (wins.map joinSpace) := by
    unfold chunk_textF
    rw [hloop']
    simp [hne2]
  have hpairs : ∀ (chunks : List String) (base : Nat),
      ((chunks.enum.map (fun p =>
          { id := base + p.1, text := p.2, source_file := fp,
            page := 1, chunk_index := p.1, created_at := now : ChunkRecord })).map
        (fun rc => (rc.source_file, rc.chunk_index))).Nodup := by
    intro chunks base
    rw [List.map_map]
    show (chunks.enum.map (fun p => (fp, p.1))).Nodup
    rw [List.enum_eq_zip_range]
    show (((List.range chunks.length).zip chunks).map ((fun i => (fp, i)) ∘ Prod.fst)).Nodup
    rw [← List.map_map, List.map_fst_zip _ _ (by simp)]
    exact (List.nodup_range _).map
      (fun a b hab => by simpa using congrArg Prod.snd hab)
  set recs0 := (wins.map joinSpace).enum.map (fun p =>
      { id := ws.nextId + p.1, text := p.2, source_file := fp,
        page := 1, chunk_index := p.1, created_at := now : ChunkRecord }) with hrecs0
  have hkstore : (ingest_document env ws fp text m o now).map (fun p => p.1.knowledge) =
      some (some { rows := t.rows ++ recs0, version := t.version + 1 }) := by
    simp only [ingest_document]
    rw [if_neg (by simp [henv]), if_neg (by simp [hkn]), if_neg (by simp [hprov])]
    simp only [hkw, hchunks, hne2]
    rfl
  cases hres : ingest_document env ws fp text m o now with
  | none => rw [hres] at hkstore; exact absurd hkstore (by simp)
  | some p =>
    rw [hres] at hkstore
    simp only [Option.map_some', Option.some.injEq] at hkstore
    exact ⟨recs0, p.1, p.2, rfl, hkstore,
      hpairs (wins.map joinSpace) ws.nextId⟩

/-- Witness for the amended C5: one ingest into a freshly initialized
store appends a batch whose pairs are distinct. -/
theorem ingest_batch_pairs_nodup_witness :
    ∃ recs ws' r,
      ingest_document env0 wsInit "doc.txt" "hello world" 4 2 "t1" = some (ws', r) ∧
      ws'.knowledge = some { rows := ([] : List ChunkRecord) ++ recs, version := 1 + 1 } ∧
      (recs.map (fun rc => (rc.source_file, rc.chunk_index))).Nodup :=
  ingest_batch_pairs_nodup env0 wsInit { rows := [], version := 1 } "doc.txt"
    "hello world" "t1" 4 2 rfl rfl rfl rfl (by decide) (by decide)

/-- Claim C7: init is idempotent — after any successful init call, a second
init on the resulting workspace reports already_exists = true with status
"ok" and leaves the workspace (hence the table's version and row count)
completely unchanged. -/
theorem init_idempotent (env : Env) (ws ws1 : Workspace) (r1 : InitResult)
    (henv : env.lancedbInstalled = true)
    (h1 : init_knowledge_base env ws = (ws1, r1)) (hok : r1.status = "ok") :
    init_knowledge_base env ws1 =
      (ws1, { status := "ok", message := some "Knowledge base already initialized",
              already_exists := true }) := by
  have hinit : ws1.lanceDirExists = true ∧ ws1.knowledge.isSome = true := by
    simp only [init_knowledge_base] at h1
    rw [if_neg (by simp [henv])] at h1
    split at h1
    · next hcond =>
      simp only [Prod.mk.injEq] at h1
      rw [← h1.1]
      exact hcond
    · split at h1
      · simp only [Prod.mk.injEq] at h1
        rw [← h1.2] at hok
        exact absurd hok (by decide)
      · split at h1
        · simp only [Prod.mk.injEq] at h1
          rw [← h1.2] at hok
          exact absurd hok (by decide)
        · simp only [Prod.mk.injEq] at h1
          rw [← h1.1]
          exact ⟨rfl, rfl⟩
  unfold init_knowledge_base
  rw [if_neg (by simp [henv])]
  rw [if_pos ⟨hinit.1, hinit.2⟩]

/-- Witness for C7: initializing a fresh workspace and then calling init
again. -/
theorem init_idempotent_witness :
    init_knowledge_base env0 (init_knowledge_base env0 wsAbsent).1 =
      ((init_knowledge_base env0 wsAbsent).1,
       { status := "ok", message := some "Knowledge base already initialized",
         already_exists := true }) :=
  init_idempotent env0 wsAbsent (init_knowledge_base env0 wsAbsent).1
    (init_knowledge_base env0 wsAbsent).2 rfl rfl rfl

/-- Claim C8: clear without confirm returns a status error with the
confirmation-required message and changes nothing; clear with confirm
removes all rows (given that lancedb imports and that — as holds for any
on-disk state — a knowledge table only exists inside an existing .lance
directory). -/
theorem clear_confirmation_guard (env : Env) (ws : Workspace) :
    clear_knowledge env ws false =
      (ws, { status := "error", error := some "Must pass --confirm to clear data" }) ∧
    (env.lancedbInstalled = true →
      (ws.knowledge.isSome = true → ws.lanceDirExists = true) →
      rowCount (clear_knowledge env ws true).1 = 0) := by
  constructor
  · rfl
  · intro hl hwfs
    unfold clear_knowledge
    rw [if_neg (by simp)]
    rw [if_neg (by simp [hl])]
    by_cases hd : ws.lanceDirExists = true
    · rw [if_neg (by simp [hd])]
      rfl
    · rw [if_pos (by simpa using hd)]
      have hk : ws.knowledge = none := by
        cases hkc : ws.knowledge with
        | none => rfl
        | some t => exact absurd (hwfs (by rw [hkc]; rfl)) hd
      simp [rowCount, hk]

/-- A workspace holding one ingested chunk row, for use as a concrete test
state. -/
def wsLoaded : Workspace :=
  { lanceDirExists := true,
    knowledge :=
      some { rows := [{ id := 0, text := "hello world", source_file := "doc.txt",
                        page := 1, chunk_index := 0, created_at := "t" }],
             version := 2 },
    nextId := 1 }

/-- Witness for C8 on a loaded one-row store. -/
theorem clear_confirmation_guard_witness :
    clear_knowledge env0 wsLoaded false =
      (wsLoaded, { status := "error", error := some "Must pass --confirm to clear data" }) ∧
    rowCount (clear_knowledge env0 wsLoaded true).1 = 0 :=
  ⟨(clear_confirmation_guard env0 wsLoaded).1,
   (clear_confirmation_guard env0 wsLoaded).2 rfl (fun _ => rfl)⟩

/-- Claim C10 (implicit): whenever `lancedb` is importable, every returning
call of ingest_document leaves the workspace's .lance directory in
existence — including on every error path (missing credentials, provider
failure, empty content) — because the directory is created with
`mkdir(parents=True, exist_ok=True)` before any of those checks run. -/
theorem ingest_creates_dir (env : Env) (ws : Workspace) (fp text now : String)
    (m o : Nat) (ws' : Workspace) (r : IngestResult)
    (henv : env.lancedbInstalled = true)
    (h : ingest_document env ws fp text m o now = some (ws', r)) :
    ws'.lanceDirExists = true := by
  simp only [ingest_document] at h
  rw [if_neg (by simp [henv])] at h
  split at h
  · simp only [Option.some.injEq, Prod.mk.injEq] at h
    rw [← h.1]
  · split at h
    · simp only [Option.some.injEq, Prod.mk.injEq] at h
      rw [← h.1]
    · split at h
      · exact absurd h (by simp)
      · split at h
        · simp only [Option.some.injEq, Prod.mk.injEq] at h
          rw [← h.1]
          cases ws.knowledge <;> rfl
        · simp only [Option.some.injEq, Prod.mk.injEq] at h
          rw [← h.1]
          cases ws.knowledge <;> rfl

/-- Witness for C10: an ingest call that fails for lack of credentials
still leaves the directory created. -/
theorem ingest_creates_dir_witness :
    (({ lanceDirExists := true, knowledge := none, nextId := 0 } : Workspace)).lanceDirExists =
      true :=
  ingest_creates_dir envNoKey wsAbsent "d.txt" "hi" "t" 4 2
    { lanceDirExists := true, knowledge := none, nextId := 0 }
    { status := "error", error := some "EMBEDDING_API_KEY or OPENAI_API_KEY not set" }
    rfl (by decide)

end AionUi
